import Mathlib

/-!
Verification of the india-numbertowords conversion engine
(`india_numbertowords/engine.py` and `india_numbertowords/__init__.py`).

Python strings are embedded as `List Char`; the engine's methods become
Lean functions over that embedding.  The recursive currency renderer is
given explicit fuel, and every renderer returns a `Res` that separates a
returned string from a raised Python exception and from fuel exhaustion
(the latter is an artifact of the embedding only).
-/

namespace N2W

/-- Outcome of running an engine method: a returned string, a raised
Python exception (KeyError / TypeError / ZeroDivisionError), or fuel
exhaustion (an artifact of modelling unbounded recursion with fuel). -/
inductive Res where
  | ok (s : String)
  | exn
  | timeout
  deriving DecidableEq

/-- The `value` slot of the dictionary built by `_parse_input`:
Python `None`, an `int`, or a `str`. -/
inductive PVal where
  | noneV
  | num (n : Nat)
  | txt (s : List Char)
  deriving DecidableEq

/-- The dictionary returned by `NumberEngine._parse_input`. -/
structure Parsed where
  mode : String
  has_decimal : Bool
  value : PVal
  integer : Option Nat
  fractional : Option (List Char)
  deriving DecidableEq

/-- The language data handed to `NumberEngine.__init__`: `atoms`,
`magnitudes`, `alphabet`, `decimal_point`, `separator`. -/
structure LangData where
  atoms : Nat → Option String
  magnitudes : List (Nat × String)
  alphabet : Char → Option String
  decimal_point : String
  separator : String

/-- Python `text.replace(c, '')`: delete every occurrence of one character. -/
def removeChar (c : Char) (s : List Char) : List Char :=
  s.filter (fun x => x != c)

/-- `parts[0].replace(',', '').replace(' ', '').replace('-', '')`
(engine.py lines 77 and 86). -/
def clean77 (s : List Char) : List Char :=
  removeChar '-' (removeChar ' ' (removeChar ',' s))

/-- `text.replace(',', '').replace('-', '').replace(' ', '')`
(engine.py line 98). -/
def clean98 (s : List Char) : List Char :=
  removeChar ' ' (removeChar '-' (removeChar ',' s))

/-- Python `s.isdigit()`: nonempty and every character a digit. -/
def pyIsDigit (s : List Char) : Bool :=
  !s.isEmpty && s.all Char.isDigit

/-- Python `int(s)` on a digit string (most significant digit first). -/
def digitsVal (s : List Char) : Nat :=
  s.foldl (fun a c => a * 10 + (c.toNat - '0'.toNat)) 0

/-- Python `text.split('.')`. -/
def splitDot : List Char → List (List Char)
  | [] => [[]]
  | c :: cs =>
    if c = '.' then [] :: splitDot cs
    else
      match splitDot cs with
      | [] => [[c]]
      | p :: ps => (c :: p) :: ps

/-- Python `text.startswith('0')`. -/
def startsWith0 (s : List Char) : Bool :=
  match s with
  | c :: _ => c == '0'
  | [] => false

/-- The character for a decimal digit value. -/
def dChar (d : Nat) : Char :=
  Char.ofNat ('0'.toNat + d)

/-- Decimal digit characters of `n`, most significant first, with explicit
fuel (`fuel = n` suffices); empty for `n = 0`. -/
def natCharsAux : Nat → Nat → List Char
  | 0, _ => []
  | fuel + 1, n =>
    if n = 0 then [] else natCharsAux fuel (n / 10) ++ [dChar (n % 10)]

/-- Python `str(n)` for a natural number. -/
def natChars (n : Nat) : List Char :=
  if n = 0 then ['0'] else natCharsAux n n

/-- Python `str(i)` for an integer: a leading minus sign for negatives,
then the digits of the absolute value. -/
def intChars (i : Int) : List Char :=
  if i < 0 then '-' :: natChars i.natAbs else natChars i.natAbs

/-- `NumberEngine._parse_input` (engine.py lines 44-106). -/
def parse_input (text : List Char) (modeOverride : Option String) : Parsed :=
  let init : Parsed :=
    { mode := modeOverride.getD "currency", has_decimal := false,
      value := .noneV, integer := Option.none, fractional := Option.none }
  if ∃ c ∈ text, c.isAlpha then
    { init with mode := "individual", value := .txt text }
  else if '.' ∈ text then
    let parts := splitDot text
    let intPart := clean77 (parts.headD [])
    { init with
      has_decimal := true,
      integer := some (if pyIsDigit intPart then digitsVal intPart else 0),
      fractional := some (parts.getD 1 []) }
  else if modeOverride = Option.none ∧ startsWith0 text ∧ 1 < text.length ∧
      pyIsDigit (clean77 text) then
    { init with mode := "individual", value := .txt text }
  else
    let mode1 : String :=
      if modeOverride = Option.none then
        if ' ' ∈ text ∨ '-' ∈ text then "individual"
        else if ',' ∈ text then "currency"
        else init.mode
      else init.mode
    let cleaned := clean98 text
    if pyIsDigit cleaned then
      { init with mode := mode1, value := .num (digitsVal cleaned) }
    else
      { init with mode := "individual", value := .txt text }

/-- Python `s.strip()`: drop whitespace from both ends. -/
def pyStrip (s : String) : String :=
  ⟨((s.data.dropWhile Char.isWhitespace).reverse.dropWhile Char.isWhitespace).reverse⟩

/-- The scan `for value, name in self.magnitudes: if number >= value`
(engine.py lines 123-124): the first entry whose breakpoint is at most `n`. -/
def findMag : List (Nat × String) → Nat → Option (Nat × String)
  | [], _ => Option.none
  | (v, name) :: rest, n => if v ≤ n then some (v, name) else findMag rest n

/-- The word list built by `NumberEngine._convert_individual` (engine.py
lines 144-153): digits through `atoms` (KeyError, hence `none`, when the
atom is missing), letters through `alphabet.get(char.upper(), char)`,
everything else skipped. -/
def individualWords (L : LangData) : List Char → Option (List String)
  | [] => some []
  | c :: cs =>
    if c.isDigit then
      match L.atoms (c.toNat - '0'.toNat) with
      | some w => (individualWords L cs).map (fun ws => w :: ws)
      | Option.none => Option.none
    else if c.isAlpha then
      (individualWords L cs).map
        (fun ws => ((L.alphabet c.toUpper).getD (String.singleton c)) :: ws)
    else individualWords L cs

/-- `self.separator.join(result)` applied to the outcome of the word
collection, or the propagated KeyError. -/
def wordsRes (L : LangData) (o : Option (List String)) : Res :=
  match o with
  | some ws => .ok (String.intercalate L.separator ws)
  | Option.none => .exn

/-- `NumberEngine._convert_individual` (engine.py lines 134-155). -/
def convert_individual (L : LangData) (text : List Char) : Res :=
  wordsRes L (individualWords L text)

/-- `NumberEngine._convert_currency` (engine.py lines 108-132), with fuel
driving the recursion.  A breakpoint of `0` raises ZeroDivisionError in
`divmod`; the final fallback is the individual rendering of `str(n)`. -/
def convert_currency (L : LangData) : Nat → Nat → Res
  | 0, _ => .timeout
  | fuel + 1, n =>
    match L.atoms n with
    | some w => .ok w
    | Option.none =>
      match findMag L.magnitudes n with
      | some (v, name) =>
        if v = 0 then .exn
        else
          match convert_currency L fuel (n / v) with
          | .ok q =>
            if 0 < n % v then
              match convert_currency L fuel (n % v) with
              | .ok r =>
                .ok (pyStrip (q ++ L.separator ++ name ++ L.separator ++ r))
              | e => e
            else .ok (pyStrip (q ++ L.separator ++ name))
          | e => e
      | Option.none => convert_individual L (natChars n)

/-- `NumberEngine._convert_decimal` (engine.py lines 157-170). -/
def convert_decimal (L : LangData) (fuel : Nat) (ip : Nat) (fp : List Char) : Res :=
  match convert_currency L fuel ip with
  | .ok iw =>
    match individualWords L fp with
    | some ws =>
      .ok (iw ++ L.separator ++ L.decimal_point ++ L.separator ++
           String.intercalate L.separator ws)
    | Option.none => .exn
  | e => e

/-- Python `str(value)` applied to the parse dictionary's `value` slot by
`_convert_individual`: `str(None)` is the four-character string `None`. -/
def pvalChars : PVal → List Char
  | .txt s => s
  | .num n => natChars n
  | .noneV => ['N', 'o', 'n', 'e']

/-- `NumberEngine.convert` (engine.py lines 22-42).  A non-individual,
non-decimal parse always carries a numeric value; the catch-all arm is the
TypeError Python would raise comparing a non-int to an int. -/
def convert (L : LangData) (fuel : Nat) (input : List Char)
    (mode : Option String) : Res :=
  let parsed := parse_input input mode
  if parsed.mode = "individual" then
    convert_individual L (pvalChars parsed.value)
  else if parsed.has_decimal then
    convert_decimal L fuel (parsed.integer.getD 0) (parsed.fractional.getD [])
  else
    match parsed.value with
    | .num n => convert_currency L fuel n
    | _ => .exn

/-- The language codes registered in `_engines` (`__init__.py` lines
24-41), in insertion order. -/
def engineLangs : List String :=
  ["hi", "bn", "mr", "gu", "te", "kn", "ta", "ml", "or", "pa", "as", "ur",
   "ne", "sa", "mai", "en"]

/-- Python string comparison `a < b`: lexicographic on code points. -/
def charListLt : List Char → List Char → Bool
  | [], [] => false
  | [], _ :: _ => true
  | _ :: _, [] => false
  | a :: as, b :: bs =>
    if a.toNat < b.toNat then true
    else if b.toNat < a.toNat then false
    else charListLt as bs

/-- Python `a <= b` on strings. -/
def strLe (a b : String) : Bool :=
  a == b || charListLt a.data b.data

/-- Insert a string into an ascending list (the step of a stable sort). -/
def insertSorted (a : String) : List String → List String
  | [] => [a]
  | b :: bs => if strLe a b then a :: b :: bs else b :: insertSorted a bs

/-- Python `sorted` on a list of strings: ascending lexicographic order. -/
def sortStrs : List String → List String
  | [] => []
  | a :: as => insertSorted a (sortStrs as)

/-- `', '.join(sorted(_engines.keys()))` (`__init__.py` line 86). -/
def availableStr : String :=
  String.intercalate ", " (sortStrs engineLangs)

/-- `num2words` (`__init__.py` lines 63-89), parameterized by the
vocabulary assigned to each registered language code. -/
def num2words (data : String → LangData) (fuel : Nat) (input : List Char)
    (lang : String) (mode : Option String) : Except String Res :=
  if lang ∈ engineLangs then
    .ok (convert (data lang) fuel input mode)
  else
    .error ("Language \x27" ++ lang ++ "\x27 not supported. Available: " ++ availableStr)

/-- Modelled from the spec: the per-language vocabulary tables (the
`languages` package) are not among the sources; the spec treats them as
external data with atoms for 0-99.  Ones words 0-19 of an English-style
vocabulary, used only to instantiate witnesses. -/
def enOnes : List String :=
  ["zero", "one", "two", "three", "four", "five", "six", "seven", "eight",
   "nine", "ten", "eleven", "twelve", "thirteen", "fourteen", "fifteen",
   "sixteen", "seventeen", "eighteen", "nineteen"]

/-- Modelled from the spec: tens words of the witness vocabulary. -/
def enTens : List String :=
  ["", "", "twenty", "thirty", "forty", "fifty", "sixty", "seventy",
   "eighty", "ninety"]

/-- Modelled from the spec: an atoms table covering 0-99, as section 3 of
the spec requires of every vocabulary. -/
def enAtom (n : Nat) : Option String :=
  if n < 20 then some (enOnes.getD n "")
  else if n < 100 then
    some (if n % 10 = 0 then enTens.getD (n / 10) ""
          else enTens.getD (n / 10) "" ++ " " ++ enOnes.getD (n % 10) "")
  else Option.none

/-- Modelled from the spec: a complete witness vocabulary with the Indian
magnitude breakpoints in strictly descending order, a decimal marker and a
single-space separator. -/
def enProbe : LangData :=
  { atoms := enAtom,
    magnitudes := [(10000000, "crore"), (100000, "lakh"),
                   (1000, "thousand"), (100, "hundred")],
    alphabet := fun _ => Option.none,
    decimal_point := "point",
    separator := " " }

/-- The ten decimal digit characters. -/
def digitChars : List Char := ['0', '1', '2', '3', '4', '5', '6', '7', '8', '9']

theorem digitChars_facts : ∀ c ∈ digitChars,
    c.isDigit = true ∧ c.isAlpha = false ∧ c ≠ '.' ∧ c ≠ ',' ∧ c ≠ ' ' ∧ c ≠ '-' := by
  decide

theorem dChar_mem (d : Nat) (h : d < 10) : dChar d ∈ digitChars := by
  interval_cases d <;> decide

theorem dChar_val (d : Nat) (h : d < 10) : (dChar d).toNat - '0'.toNat = d := by
  interval_cases d <;> decide

theorem mem_natCharsAux : ∀ fuel n c, c ∈ natCharsAux fuel n → c ∈ digitChars := by
  intro fuel
  induction fuel with
  | zero => intro n c h; simp [natCharsAux] at h
  | succ f ih =>
    intro n c h
    by_cases hn : n = 0
    · simp [natCharsAux, hn] at h
    · simp only [natCharsAux, if_neg hn, List.mem_append, List.mem_singleton] at h
      rcases h with h | h
      · exact ih _ _ h
      · subst h
        exact dChar_mem _ (Nat.mod_lt _ (by norm_num))

theorem mem_natChars (n : Nat) (c : Char) (h : c ∈ natChars n) : c ∈ digitChars := by
  by_cases hn : n = 0
  · simp only [natChars, if_pos hn, List.mem_singleton] at h
    subst h; decide
  · simp only [natChars, if_neg hn] at h
    exact mem_natCharsAux _ _ _ h

theorem digitsVal_append (xs : List Char) (c : Char) :
    digitsVal (xs ++ [c]) = digitsVal xs * 10 + (c.toNat - '0'.toNat) := by
  simp [digitsVal, List.foldl_append]

theorem natCharsAux_val : ∀ fuel n, n ≤ fuel → digitsVal (natCharsAux fuel n) = n := by
  intro fuel
  induction fuel with
  | zero => intro n h; interval_cases n; simp [natCharsAux, digitsVal]
  | succ f ih =>
    intro n h
    by_cases hn : n = 0
    · simp [natCharsAux, hn, digitsVal]
    · have h10 : n / 10 ≤ f := by
        have := Nat.div_lt_self (Nat.pos_of_ne_zero hn) (by norm_num : 1 < 10)
        omega
      simp only [natCharsAux, if_neg hn]
      rw [digitsVal_append, ih _ h10, dChar_val _ (Nat.mod_lt _ (by norm_num))]
      omega

theorem natChars_val (n : Nat) : digitsVal (natChars n) = n := by
  by_cases hn : n = 0
  · simp [natChars, hn]; decide
  · simp only [natChars, if_neg hn]
    exact natCharsAux_val n n le_rfl

theorem natChars_ne_nil (n : Nat) : natChars n ≠ [] := by
  by_cases hn : n = 0
  · simp [natChars, hn]
  · simp only [natChars, if_neg hn]
    obtain ⟨f, rfl⟩ : ∃ f, n = f + 1 := ⟨n - 1, by omega⟩
    simp [natCharsAux]

/-- One `atoms` word per character of a digit string, in order; `none` as
soon as an atom is missing (the KeyError of `_convert_individual`). -/
def atomsSeq (L : LangData) : List Char → Option (List String)
  | [] => some []
  | c :: cs =>
    match L.atoms (c.toNat - '0'.toNat) with
    | some w => (atomsSeq L cs).map (fun ws => w :: ws)
    | Option.none => Option.none

theorem findMag_first (n v : Nat) (name : String) (pre post : List (Nat × String))
    (hfirst : ∀ p ∈ pre, n < p.1) (hge : v ≤ n) :
    findMag (pre ++ (v, name) :: post) n = some (v, name) := by
  induction pre with
  | nil => simp [findMag, hge]
  | cons p pre ih =>
    obtain ⟨v', name'⟩ := p
    have hlt : n < v' := hfirst _ (List.mem_cons_self _ _)
    simp only [List.cons_append, findMag]
    rw [if_neg (by omega)]
    exact ih fun q hq => hfirst q (List.mem_cons_of_mem _ hq)

theorem findMag_sound : ∀ (mags : List (Nat × String)) (n v : Nat) (name : String),
    findMag mags n = some (v, name) → (v, name) ∈ mags ∧ v ≤ n := by
  intro mags
  induction mags with
  | nil => intro n v name h; simp [findMag] at h
  | cons p rest ih =>
    intro n v name h
    obtain ⟨v', name'⟩ := p
    simp only [findMag] at h
    by_cases hle : v' ≤ n
    · rw [if_pos hle] at h
      obtain ⟨rfl, rfl⟩ : v' = v ∧ name' = name := by
        injection h with h'
        exact ⟨congrArg Prod.fst h', congrArg Prod.snd h'⟩
      exact ⟨List.mem_cons_self _ _, hle⟩
    · rw [if_neg hle] at h
      obtain ⟨hm, hle'⟩ := ih n v name h
      exact ⟨List.mem_cons_of_mem _ hm, hle'⟩

theorem convert_individual_ne_timeout (L : LangData) (t : List Char) :
    convert_individual L t ≠ .timeout := by
  unfold convert_individual wordsRes
  cases individualWords L t <;> simp

theorem individualWords_no_alpha (L : LangData) :
    ∀ t : List Char, (∀ c ∈ t, c.isAlpha = false) →
      individualWords L t = atomsSeq L (t.filter Char.isDigit) := by
  intro t
  induction t with
  | nil => intro _; simp [individualWords, atomsSeq]
  | cons c cs ih =>
    intro h
    have hcs := fun d hd => h d (List.mem_cons_of_mem _ hd)
    have hc : c.isAlpha = false := h c (List.mem_cons_self _ _)
    by_cases hd : c.isDigit
    · rw [List.filter_cons_of_pos hd]
      simp only [individualWords, if_pos hd, atomsSeq]
      cases ha : L.atoms (c.toNat - '0'.toNat) with
      | none => simp [ha]
      | some w => simp [ha, ih hcs]
    · rw [List.filter_cons_of_neg hd]
      simp only [individualWords, if_neg hd, hc, Bool.false_eq_true, if_false]
      exact ih hcs

theorem splitDot_ne_nil : ∀ s : List Char, splitDot s ≠ [] := by
  intro s
  induction s with
  | nil => simp [splitDot]
  | cons c cs ih =>
    by_cases hc : c = '.'
    · simp [splitDot, hc]
    · simp only [splitDot, if_neg hc]
      cases h : splitDot cs with
      | nil => simp
      | cons p ps => simp

theorem splitDot_append (a b : List Char) (ha : '.' ∉ a) :
    splitDot (a ++ '.' :: b) = a :: splitDot b := by
  induction a with
  | nil => simp [splitDot]
  | cons c a ih =>
    have hc : c ≠ '.' := fun h => ha (h ▸ List.mem_cons_self _ _)
    have ha' : '.' ∉ a := fun h => ha (List.mem_cons_of_mem _ h)
    simp only [List.cons_append, splitDot, if_neg hc]
    rw [show List.append a ('.' :: b) = a ++ '.' :: b from rfl, ih ha']

theorem splitDot_getD_zero : ∀ b : List Char,
    (splitDot b).getD 0 [] = b.takeWhile (fun c => c != '.') := by
  intro b
  induction b with
  | nil => simp [splitDot]
  | cons c cs ih =>
    by_cases hc : c = '.'
    · subst hc
      simp [splitDot, List.takeWhile_cons]
    · simp only [splitDot, if_neg hc]
      cases h : splitDot cs with
      | nil => exact absurd h (splitDot_ne_nil cs)
      | cons p ps =>
        rw [h] at ih
        simp only [List.getD_cons_zero] at ih
        simp [List.takeWhile_cons, bne_iff_ne, hc, ih]

theorem removeChar_eq_self (c : Char) (s : List Char) (h : ∀ x ∈ s, x ≠ c) :
    removeChar c s = s := by
  unfold removeChar
  apply List.filter_eq_self.mpr
  intro a ha
  simpa [bne_iff_ne] using h a ha

theorem parse_input_alpha (text : List Char) (mo : Option String)
    (h : ∃ c ∈ text, c.isAlpha) :
    parse_input text mo =
      { mode := "individual", has_decimal := false, value := .txt text,
        integer := Option.none, fractional := Option.none } := by
  simp only [parse_input]
  rw [if_pos h]

theorem parse_input_decimal (text : List Char) (mo : Option String)
    (hna : ¬ ∃ c ∈ text, c.isAlpha) (hdot : '.' ∈ text) :
    parse_input text mo =
      { mode := mo.getD "currency", has_decimal := true, value := .noneV,
        integer := some (if pyIsDigit (clean77 ((splitDot text).headD []))
                         then digitsVal (clean77 ((splitDot text).headD [])) else 0),
        fractional := some ((splitDot text).getD 1 []) } := by
  simp only [parse_input]
  rw [if_neg hna, if_pos hdot]

theorem parse_input_lead_zero (text : List Char)
    (hna : ¬ ∃ c ∈ text, c.isAlpha) (hdot : '.' ∉ text)
    (h0 : startsWith0 text = true) (hlen : 1 < text.length)
    (hdig : pyIsDigit (clean77 text) = true) :
    parse_input text Option.none =
      { mode := "individual", has_decimal := false, value := .txt text,
        integer := Option.none, fractional := Option.none } := by
  simp only [parse_input]
  rw [if_neg hna, if_neg hdot, if_pos ⟨trivial, h0, hlen, hdig⟩]

theorem pyIsDigit_digits (s : List Char) (hne : s ≠ []) (h : ∀ c ∈ s, c ∈ digitChars) :
    pyIsDigit s = true := by
  unfold pyIsDigit
  rw [List.all_eq_true.mpr (fun c hc => (digitChars_facts c (h c hc)).1)]
  cases s with
  | nil => exact absurd rfl hne
  | cons a l => rfl

theorem clean98_minus_digits (s : List Char) (h : ∀ c ∈ s, c ∈ digitChars) :
    clean98 ('-' :: s) = s := by
  have r1 : removeChar ',' ('-' :: s) = '-' :: removeChar ',' s := by
    simp [removeChar, List.filter_cons]
  have r1' : removeChar ',' s = s :=
    removeChar_eq_self _ _ fun x hx => (digitChars_facts x (h x hx)).2.2.2.1
  have r2 : removeChar '-' ('-' :: s) = removeChar '-' s := by
    simp [removeChar, List.filter_cons]
  have r2' : removeChar '-' s = s :=
    removeChar_eq_self _ _ fun x hx => (digitChars_facts x (h x hx)).2.2.2.2.2
  have r3 : removeChar ' ' s = s :=
    removeChar_eq_self _ _ fun x hx => (digitChars_facts x (h x hx)).2.2.2.2.1
  unfold clean98
  rw [r1, r1', r2, r2', r3]

/-- C5: a value that is a key of `atoms` is rendered as exactly its atom
word by the currency renderer, before any magnitude decomposition; in
particular `renderCurrency(0)` is the zero atom. -/
theorem c5_atom_lookup (L : LangData) (v : Nat) (w : String) (fuel : Nat)
    (ha : L.atoms v = some w) (hf : 0 < fuel) :
    convert_currency L fuel v = .ok w := by
  obtain ⟨f, rfl⟩ : ∃ f, fuel = f + 1 := ⟨fuel - 1, by omega⟩
  simp [convert_currency, ha]

/-- C3: for a non-atom value whose first matching magnitude breakpoint is
`v` (every earlier breakpoint exceeds `n`), the currency renderer returns
the rendered quotient, the separator, the magnitude word, and the rendered
remainder after a further separator exactly when `n % v > 0`, the whole
stripped of edge whitespace. -/
theorem c3_magnitude_decomposition (L : LangData) (n v : Nat) (name : String)
    (pre post : List (Nat × String)) (q r : String) (fuel : Nat)
    (hmag : L.magnitudes = pre ++ (v, name) :: post)
    (hfirst : ∀ p ∈ pre, n < p.1)
    (hge : v ≤ n) (hv : 0 < v)
    (hatom : L.atoms n = Option.none)
    (hq : convert_currency L fuel (n / v) = .ok q)
    (hr : 0 < n % v → convert_currency L fuel (n % v) = .ok r) :
    convert_currency L (fuel + 1) n =
      .ok (if 0 < n % v
           then pyStrip (q ++ L.separator ++ name ++ L.separator ++ r)
           else pyStrip (q ++ L.separator ++ name)) := by
  simp only [convert_currency, hatom]
  rw [hmag, findMag_first n v name pre post hfirst hge]
  simp only
  rw [if_neg (by omega : ¬ v = 0), hq]
  simp only
  by_cases hrem : 0 < n % v
  · rw [if_pos hrem, hr hrem, if_pos hrem]
  · rw [if_neg hrem, if_neg hrem]

/-- C4: when every magnitude breakpoint exceeds 1, the recursive currency
renderer terminates on every input: fuel `n + 1` is never exhausted, since
each recursive call strictly decreases the argument. -/
theorem c4_termination (L : LangData) (hmag : ∀ p ∈ L.magnitudes, 1 < p.1) :
    ∀ n fuel, n < fuel → convert_currency L fuel n ≠ .timeout := by
  intro n
  induction n using Nat.strong_induction_on with
  | _ n ih =>
    intro fuel hf
    obtain ⟨f, rfl⟩ : ∃ f, fuel = f + 1 := ⟨fuel - 1, by omega⟩
    simp only [convert_currency]
    cases hA : L.atoms n with
    | some w => simp
    | none =>
      cases hM : findMag L.magnitudes n with
      | none => simpa using convert_individual_ne_timeout L (natChars n)
      | some p =>
        obtain ⟨v, name⟩ := p
        obtain ⟨hmem, hle⟩ := findMag_sound L.magnitudes n v name hM
        have hv1 : 1 < v := hmag _ hmem
        simp only
        rw [if_neg (by omega : ¬ v = 0)]
        have hqlt : n / v < n := Nat.div_lt_self (by omega) hv1
        have hrlt : n % v < n := lt_of_lt_of_le (Nat.mod_lt _ (by omega)) hle
        cases hQ : convert_currency L f (n / v) with
        | timeout => exact absurd hQ (ih _ hqlt _ (by omega))
        | exn => simp
        | ok q =>
          simp only
          by_cases hrem : 0 < n % v
          · rw [if_pos hrem]
            cases hR : convert_currency L f (n % v) with
            | timeout => exact absurd hR (ih _ hrlt _ (by omega))
            | exn => simp
            | ok r => simp
          · rw [if_neg hrem]
            simp

/-- C6: any input containing an alphabetic character is classified as
individual mode regardless of the mode override, and the original,
unmodified string is rendered character by character. -/
theorem c6_alpha_always_individual (L : LangData) (fuel : Nat) (text : List Char)
    (mo : Option String) (h : ∃ c ∈ text, c.isAlpha) :
    convert L fuel text mo = convert_individual L text := by
  simp only [convert, parse_input_alpha text mo h]
  rfl

/-- C9: the empty-string input, with or without a mode override, falls
through to individual mode with the empty string as value and yields the
empty string without raising. -/
theorem c9_empty_string (L : LangData) (fuel : Nat) (mo : Option String) :
    convert L fuel [] mo = .ok "" := by
  have h1 : ¬ ∃ c ∈ ([] : List Char), c.isAlpha := by simp
  have h2 : '.' ∉ ([] : List Char) := by simp
  have h3 : ¬ (mo = Option.none ∧ startsWith0 [] ∧ 1 < ([] : List Char).length ∧
      pyIsDigit (clean77 [])) := by
    rintro ⟨-, h0, -, -⟩
    simp [startsWith0] at h0
  have h4 : ¬ (pyIsDigit (clean98 []) = true) := by decide
  simp only [convert, parse_input]
  rw [if_neg h1, if_neg h2, if_neg h3, if_neg h4]
  rfl

/-- C7: a digit string of length > 1 starting with `0` (all digits after
stripping commas, spaces and hyphens), with no mode override, no dot and
no letters, resolves to individual mode and yields exactly one atom word
per digit character of the input, in order. -/
theorem c7_leading_zero_individual (L : LangData) (fuel : Nat) (text : List Char)
    (halpha : ∀ c ∈ text, c.isAlpha = false)
    (hdot : '.' ∉ text)
    (h0 : startsWith0 text = true)
    (hlen : 1 < text.length)
    (hdig : pyIsDigit (clean77 text) = true) :
    convert L fuel text Option.none =
      wordsRes L (atomsSeq L (text.filter Char.isDigit)) := by
  have hna : ¬ ∃ c ∈ text, c.isAlpha := by
    rintro ⟨c, hc, hca⟩
    rw [halpha c hc] at hca
    exact absurd hca (by simp)
  simp only [convert, parse_input_lead_zero text hna hdot h0 hlen hdig]
  rw [if_pos trivial]
  unfold convert_individual
  rw [show pvalChars (PVal.txt text) = text from rfl,
      individualWords_no_alpha L text halpha]

theorem parse_input_minus_digits (s : List Char) (hne : s ≠ [])
    (h : ∀ c ∈ s, c ∈ digitChars) :
    parse_input ('-' :: s) Option.none =
      { mode := "individual", has_decimal := false, value := .num (digitsVal s),
        integer := Option.none, fractional := Option.none } := by
  have hfacts := fun c hc => digitChars_facts c (h c hc)
  have h1 : ¬ ∃ c ∈ '-' :: s, c.isAlpha := by
    rintro ⟨c, hc, hca⟩
    rcases List.mem_cons.mp hc with rfl | hc'
    · exact absurd hca (by decide)
    · rw [(hfacts c hc').2.1] at hca
      exact absurd hca (by simp)
  have h2 : '.' ∉ '-' :: s := by
    intro hmem
    rcases List.mem_cons.mp hmem with hh | hc'
    · exact absurd hh (by decide)
    · exact (hfacts _ hc').2.2.1 rfl
  have hs0 : startsWith0 ('-' :: s) = false := rfl
  simp only [parse_input]
  rw [if_neg h1, if_neg h2, clean98_minus_digits s h]
  simp [hs0, pyIsDigit_digits s hne h, List.mem_cons]

/-- C10: a negative integer input with no mode override trips the hyphen
separator heuristic: the digits of the absolute value are rendered
individually and the minus sign is silently dropped (no negative or
currency reading). -/
theorem c10_negative_drops_minus (L : LangData) (fuel : Nat) (i : Int)
    (hneg : i < 0) :
    convert L fuel (intChars i) Option.none =
      convert_individual L (natChars i.natAbs) := by
  have hic : intChars i = '-' :: natChars i.natAbs := by
    unfold intChars
    rw [if_pos hneg]
  rw [hic]
  have hmem : ∀ c ∈ natChars i.natAbs, c ∈ digitChars :=
    fun c hc => mem_natChars _ _ hc
  simp only [convert,
    parse_input_minus_digits (natChars i.natAbs) (natChars_ne_nil _) hmem]
  rw [if_pos trivial,
      show pvalChars (PVal.num (digitsVal (natChars i.natAbs))) =
        natChars (digitsVal (natChars i.natAbs)) from rfl,
      natChars_val]

/-- C2 (amended): for a letter-free input containing a dot, the classifier
splits on every dot and keeps as the fractional part only the segment
between the first and the second dot; anything after a second dot is
discarded. -/
theorem c2_fractional_between_dots (a b : List Char) (mo : Option String)
    (hdot : '.' ∉ a)
    (halpha : ¬ ∃ c ∈ a ++ '.' :: b, c.isAlpha) :
    (parse_input (a ++ '.' :: b) mo).fractional =
      some (b.takeWhile (fun c => c != '.')) := by
  rw [parse_input_decimal (a ++ '.' :: b) mo halpha (by simp)]
  simp only [splitDot_append a b hdot, List.getD_cons_succ, splitDot_getD_zero]

/-- C2 counterexample: on the letter-free multi-dot input `1.2.3` the
fractional part is `2` alone, not the claimed entire remainder `2.3`. -/
theorem c2_counterexample :
    (parse_input ['1', '.', '2', '.', '3'] Option.none).fractional = some ['2'] ∧
    (parse_input ['1', '.', '2', '.', '3'] Option.none).fractional ≠
      some ['2', '.', '3'] := by
  decide

/-- C2 witness: for `1.2.3` written as `"1" ++ "." ++ "2.3"`, the amended
statement yields the segment before the next dot, `2`. -/
theorem c2_witness :
    ('.' ∉ ['1']) ∧ (¬ ∃ c ∈ ['1'] ++ '.' :: ['2', '.', '3'], c.isAlpha) ∧
    (parse_input (['1'] ++ '.' :: ['2', '.', '3']) Option.none).fractional =
      some (['2', '.', '3'].takeWhile (fun c => c != '.')) :=
  ⟨by decide, by decide,
   c2_fractional_between_dots ['1'] ['2', '.', '3'] Option.none (by decide)
     (by decide)⟩

/-- C1 (code bug): on the letter-free input `3.14` the currency override
and the absent override both produce the decimal rendering, but the
`individual` override wins in `convert` while the parse value is still
`None`, so the engine renders the string `None` character by character. -/
theorem c1_individual_override_renders_none :
    convert enProbe 3 ['3', '.', '1', '4'] (some "individual") = .ok "N o n e" ∧
    convert enProbe 3 ['3', '.', '1', '4'] (some "currency") =
      .ok "three point one four" ∧
    convert enProbe 3 ['3', '.', '1', '4'] Option.none =
      .ok "three point one four" := by
  decide

/-- C8: a language code outside the registered set is rejected before the
engine runs, with an error carrying the requested code and the sorted list
of valid codes; a registered code goes straight to the engine. -/
theorem c8_unsupported_language (data : String → LangData) (fuel : Nat)
    (input : List Char) (lang : String) (mode : Option String) :
    (lang ∉ engineLangs →
      num2words data fuel input lang mode =
        .error ("Language \x27" ++ lang ++ "\x27 not supported. Available: " ++
          availableStr)) ∧
    (lang ∈ engineLangs →
      num2words data fuel input lang mode =
        .ok (convert (data lang) fuel input mode)) := by
  constructor
  · intro h
    simp [num2words, h]
  · intro h
    simp [num2words, h]

/-- C3 witness: 123456 decomposes at the lakh breakpoint with quotient 1
and remainder 23456. -/
theorem c3_witness :
    enProbe.magnitudes = [(10000000, "crore")] ++ (100000, "lakh") ::
        [(1000, "thousand"), (100, "hundred")] ∧
    (∀ p ∈ [((10000000 : Nat), "crore")], 123456 < p.1) ∧
    (100000 : Nat) ≤ 123456 ∧ (0 : Nat) < 100000 ∧
    enProbe.atoms 123456 = Option.none ∧
    convert_currency enProbe 5 (123456 / 100000) = .ok "one" ∧
    convert_currency enProbe 5 (123456 % 100000) =
      .ok "twenty three thousand four hundred fifty six" ∧
    convert_currency enProbe (5 + 1) 123456 =
      .ok (if 0 < 123456 % 100000
           then pyStrip ("one" ++ enProbe.separator ++ "lakh" ++
             enProbe.separator ++ "twenty three thousand four hundred fifty six")
           else pyStrip ("one" ++ enProbe.separator ++ "lakh")) :=
  ⟨rfl, by decide, by decide, by decide, by decide, by decide, by decide,
   c3_magnitude_decomposition enProbe 123456 100000 "lakh"
     [(10000000, "crore")] [(1000, "thousand"), (100, "hundred")]
     "one" "twenty three thousand four hundred fifty six" 5
     rfl (by decide) (by decide) (by decide) (by decide) (by decide)
     (fun _ => by decide)⟩

/-- C4 witness: with the probe vocabulary every breakpoint exceeds 1 and
fuel 6 is not exhausted on input 5. -/
theorem c4_witness :
    (∀ p ∈ enProbe.magnitudes, 1 < p.1) ∧ (5 : Nat) < 6 ∧
    convert_currency enProbe 6 5 ≠ .timeout :=
  ⟨by decide, by decide, c4_termination enProbe (by decide) 5 6 (by decide)⟩

/-- C5 witness: the zero atom is returned for input 0. -/
theorem c5_witness :
    enProbe.atoms 0 = some "zero" ∧ (0 : Nat) < 1 ∧
    convert_currency enProbe 1 0 = .ok "zero" :=
  ⟨by decide, by decide, c5_atom_lookup enProbe 0 "zero" 1 (by decide) (by decide)⟩

/-- C6 witness: `AB` contains letters, so even a currency override yields
the individual rendering of the original string. -/
theorem c6_witness :
    (∃ c ∈ ['A', 'B'], c.isAlpha) ∧
    convert enProbe 1 ['A', 'B'] (some "currency") =
      convert_individual enProbe ['A', 'B'] :=
  ⟨by decide,
   c6_alpha_always_individual enProbe 1 ['A', 'B'] (some "currency") (by decide)⟩

/-- C7 witness: `007` produces one word per digit, `zero zero seven`. -/
theorem c7_witness :
    (∀ c ∈ ['0', '0', '7'], c.isAlpha = false) ∧ '.' ∉ ['0', '0', '7'] ∧
    startsWith0 ['0', '0', '7'] = true ∧
    1 < (['0', '0', '7'] : List Char).length ∧
    pyIsDigit (clean77 ['0', '0', '7']) = true ∧
    convert enProbe 1 ['0', '0', '7'] Option.none = .ok "zero zero seven" :=
  ⟨by decide, by decide, by decide, by decide, by decide,
   (c7_leading_zero_individual enProbe 1 ['0', '0', '7'] (by decide) (by decide)
     (by decide) (by decide) (by decide)).trans (by decide)⟩

/-- C8 witness: `xx` is rejected with the full message; `hi` reaches the
engine. -/
theorem c8_witness :
    ("xx" ∉ engineLangs) ∧
    num2words (fun _ => enProbe) 1 [] "xx" Option.none =
      .error ("Language \x27" ++ "xx" ++ "\x27 not supported. Available: " ++
        availableStr) ∧
    ("hi" ∈ engineLangs) ∧
    num2words (fun _ => enProbe) 1 [] "hi" Option.none =
      .ok (convert ((fun _ : String => enProbe) "hi") 1 [] Option.none) :=
  ⟨by decide,
   (c8_unsupported_language (fun _ => enProbe) 1 [] "xx" Option.none).1 (by decide),
   by decide,
   (c8_unsupported_language (fun _ => enProbe) 1 [] "hi" Option.none).2 (by decide)⟩

/-- C10 witness: input -42 renders as the words for 4 and 2. -/
theorem c10_witness :
    ((-42 : Int) < 0) ∧
    convert enProbe 1 (intChars (-42)) Option.none =
      convert_individual enProbe (natChars (Int.natAbs (-42))) ∧
    convert_individual enProbe (natChars (Int.natAbs (-42))) = .ok "four two" :=
  ⟨by decide, c10_negative_drops_minus enProbe 1 (-42) (by decide), by decide⟩

end N2W
